import Mathlib

/-!
Shallow embedding of the indentation-sensitive parser in
`python/parse_indent.py` and of the field expansion in
`server/named_registers.py` (PandABlocks-server), together with proofs of
the behavioural properties claimed for them.

A raw physical line is a `List Char` that still carries its trailing
newline when the line has one.  `read_lines` preprocesses raw lines into
the stream of significant lines consumed by `parse_indent_level`.
-/

/-- `line.lstrip(' ')`: drop leading space characters of a physical line. -/
def lstripSpaces : List Char → List Char
  | [] => []
  | c :: cs => if c = ' ' then lstripSpaces cs else c :: cs

/-- A significant (non-comment, non-blank) line as returned by
`read_lines.read_line`: 1-based physical line number, indent (count of
leading spaces, `len(line) - len(content)`) and content (leading spaces
and trailing newline stripped, `content[:-1]`). -/
structure SigLine where
  lineNo : Nat
  indent : Nat
  content : List Char
deriving Repr, DecidableEq

instance : Inhabited SigLine := ⟨⟨0, 0, []⟩⟩

/-- How the stream of significant lines terminates: normal exhaustion of the
input (`StopIteration`), the `IndexError` raised by `content[0]` on a line of
spaces with no terminator, or the failure of `assert content[-1] == '\n'`
(`Unexpected end of input`) on a significant line with no terminator. -/
inductive Tail where
  | eof
  | indexError
  | assertEndOfInput
deriving Repr, DecidableEq

/-- `read_lines` iterated to exhaustion: starting from the current `line_no`
counter, turn the raw physical lines into the sequence of significant lines
that `read_line` would successively return, paired with the terminal event
that ends the iteration.  Comment lines (first non-space character `#`) and
blank lines (spaces then newline) are skipped while still advancing the
line counter. -/
def readLines : Nat → List (List Char) → List SigLine × Tail
  | _, [] => ([], Tail.eof)
  | n, l :: rest =>
    match lstripSpaces l with
    | [] => ([], Tail.indexError)
    | c :: cs =>
      if c = '#' ∨ c = '\n' then readLines (n + 1) rest
      else if (c :: cs).getLast? = some '\n' then
        let r := readLines (n + 1) rest
        (⟨n + 1, l.length - (c :: cs).length, (c :: cs).dropLast⟩ :: r.1, r.2)
      else ([], Tail.assertEndOfInput)

/-- A parse node `[value, children]` as built by `parse_indent_level`. -/
inductive Parse where
  | node : List Char → List Parse → Parse

/-- The parsed line stored in a node. -/
def Parse.value : Parse → List Char
  | .node v _ => v

/-- The sub-parses stored in a node. -/
def Parse.children : Parse → List Parse
  | .node _ cs => cs

/-- Failures escaping the indent parser: `ParseFail(line_no, message)` raised
by `lines.check`, or a crash of the line reader surfacing mid-parse. -/
inductive PFail where
  | parseFail : Nat → String → PFail
  | crash : Tail → PFail
deriving Repr, DecidableEq

/-- `parse_indent_level(new_indent, lines)`, fuel-indexed with one unit of
fuel per loop iteration.  `acc` holds the `result` list in reverse (head =
most recently appended sibling, the code's `result[-1]`); the returned line
list is what the cursor has not consumed — `lines.undo()` is modelled by
returning the stream with the pushed-back line still in front.  `none`
means the fuel ran out; `parseLevelF_spec` shows `2 * length + 1` fuel
always suffices. -/
def parseLevelF : Nat → Nat → List Parse → List SigLine → Tail →
    Option (Except PFail (List Parse × List SigLine))
  | 0, _, _, _, _ => none
  | _ + 1, _, acc, [], tail =>
    match tail with
    | Tail.eof => some (Except.ok (acc.reverse, []))
    | t => some (Except.error (PFail.crash t))
  | fuel + 1, newIndent, acc, l :: rest, tail =>
    if l.indent < newIndent then
      some (Except.ok (acc.reverse, l :: rest))
    else if newIndent < l.indent then
      match acc with
      | [] => some (Except.error (PFail.parseFail l.lineNo "Invalid indentation"))
      | Parse.node v cs :: accRest =>
        if cs.isEmpty then
          match parseLevelF fuel l.indent [] (l :: rest) tail with
          | none => none
          | some (Except.error e) => some (Except.error e)
          | some (Except.ok (sub, rest2)) =>
            parseLevelF fuel newIndent (Parse.node v sub :: accRest) rest2 tail
        else some (Except.error (PFail.parseFail l.lineNo "Sub-fields already parsed"))
    else parseLevelF fuel newIndent (Parse.node l.content [] :: acc) rest tail

/-- `parse_indented_file`: make a `read_lines` cursor over the file's raw
lines and run `parse_indent_level(0, lines)` over it. -/
def parseIndentedFile (raw : List (List Char)) : Option (Except PFail (List Parse)) :=
  let s := readLines 0 raw
  match parseLevelF (2 * s.1.length + 1) 0 [] s.1 s.2 with
  | none => none
  | some (Except.error e) => some (Except.error e)
  | some (Except.ok (res, _)) => some (Except.ok res)

/-- A raw line that `read_line` silently skips: its first non-space
character is `#` (comment) or a newline (blank line). -/
def skippable (l : List Char) : Bool :=
  match lstripSpaces l with
  | [] => false
  | c :: _ => c = '#' ∨ c = '\n'

/-- A raw line the reader can get past without crashing: either skipped, or
significant with its mandatory trailing newline. -/
def consumable (l : List Char) : Bool :=
  match lstripSpaces l with
  | [] => false
  | c :: cs => (c = '#' ∨ c = '\n') ∨ (c :: cs).getLast? = some '\n'

/-- `InsertSkips L L' k`: `L'` is `L` with `k` extra lines inserted at
arbitrary positions, every inserted line being skippable. -/
inductive InsertSkips : List (List Char) → List (List Char) → Nat → Prop
  | nil : InsertSkips [] [] 0
  | keep {L L' k} (l : List Char) :
      InsertSkips L L' k → InsertSkips (l :: L) (l :: L') k
  | ins {L L' k} (l : List Char) :
      skippable l = true → InsertSkips L L' k → InsertSkips L (l :: L') (k + 1)

/-- Python `str` whitespace, as recognised by `str.split()`. -/
def isPySpace (c : Char) : Bool :=
  c = ' ' ∨ c = '\t' ∨ c = '\n' ∨ c = '\r' ∨ c = '\x0b' ∨ c = '\x0c'

/-- Worker for `pySplit`: `acc` is the current token reversed. -/
def pySplitGo : List Char → List Char → List (List Char)
  | [], acc => if acc.isEmpty then [] else [acc.reverse]
  | c :: cs, acc =>
    if isPySpace c then
      if acc.isEmpty then pySplitGo cs [] else acc.reverse :: pySplitGo cs []
    else pySplitGo cs (c :: acc)

/-- `s.split()`: split on runs of whitespace, returning no empty tokens. -/
def pySplit (s : List Char) : List (List Char) := pySplitGo s []

/-- Remainder step of `s.split(None, 1)`: after the first token, skip
whitespace; if nothing is left the result is just the token, otherwise the
rest is kept verbatim (trailing whitespace included). -/
def pySplit1Rest (tok : List Char) (s : List Char) : List (List Char) :=
  match s.dropWhile isPySpace with
  | [] => [tok.reverse]
  | rest => [tok.reverse, rest]

/-- Worker for `pySplit1`, accumulating the first token reversed. -/
def pySplit1Go : List Char → List Char → List (List Char)
  | [], acc => if acc.isEmpty then [] else [acc.reverse]
  | c :: cs, acc =>
    if isPySpace c then
      if acc.isEmpty then pySplit1Go cs []
      else pySplit1Rest acc (c :: cs)
    else pySplit1Go cs (c :: acc)

/-- `s.split(None, 1)`: at most one split, on the first whitespace run. -/
def pySplit1 (s : List Char) : List (List Char) := pySplit1Go s []

/-- `int(s)` for a decimal string token: optional surrounding whitespace,
optional sign, then a non-empty run of digits; `none` models `ValueError`. -/
def pyInt (s : List Char) : Option Int :=
  let t := (s.dropWhile isPySpace).reverse.dropWhile isPySpace |>.reverse
  let (sign, digits) : Int × List Char :=
    match t with
    | '-' :: ds => (-1, ds)
    | '+' :: ds => (1, ds)
    | ds => (1, ds)
  if digits.isEmpty ∨ ¬ digits.all Char.isDigit then none
  else some (sign * (digits.foldl (fun a c => a * 10 + (c.toNat - 48)) 0 : Nat))

/-- Failures of the reduction of the tree in `parse_register_file`: the
`ValueError` from unpacking `reg, value = reg_value.split()`, or the
`assert not sub_field` failure on a field node with children. -/
inductive RegErr where
  | blockUnpackError
  | assertSubField
deriving Repr, DecidableEq

/-- `result[reg] = (value, fields)` on a Python dict kept as an association
list: overwrite in place when the key exists, else append. -/
def dictSet (k : List Char) (v : List Char × List (List (List Char))) :
    List (List Char × (List Char × List (List (List Char)))) →
    List (List Char × (List Char × List (List (List Char))))
  | [] => [(k, v)]
  | (k', v') :: rest =>
    if k' = k then (k, v) :: rest else (k', v') :: dictSet k v rest

/-- The inner loop of `parse_register_file` over the children of one block:
assert the field node is a leaf, then append `field.split(None, 1)`
(whatever its length) to the field list of the block. -/
def regFields : List Parse → Except RegErr (List (List (List Char)))
  | [] => Except.ok []
  | Parse.node field sub_field :: rest =>
    if sub_field.isEmpty then
      match regFields rest with
      | Except.error e => Except.error e
      | Except.ok fs => Except.ok (pySplit1 field :: fs)
    else Except.error RegErr.assertSubField

/-- The loop of `parse_register_file` over the top-level parse: split each
block line into exactly `reg, value`, reduce its children with `regFields`,
and store the result under `reg`. -/
def regReduce : List Parse →
    List (List Char × (List Char × List (List (List Char)))) →
    Except RegErr (List (List Char × (List Char × List (List (List Char)))))
  | [], result => Except.ok result
  | Parse.node reg_value fields_in :: rest, result =>
    match pySplit reg_value with
    | [reg, value] =>
      match regFields fields_in with
      | Except.error e => Except.error e
      | Except.ok fields => regReduce rest (dictSet reg (value, fields) result)
    | _ => Except.error RegErr.blockUnpackError

/-- `parse_register_file`: parse the file, then reduce the tree. -/
def parseRegisterFile (raw : List (List Char)) :
    Option (Except PFail
      (Except RegErr (List (List Char × (List Char × List (List (List Char))))))) :=
  match parseIndentedFile raw with
  | none => none
  | some (Except.error e) => some (Except.error e)
  | some (Except.ok parse) => some (Except.ok (regReduce parse []))

/-- Failures of the field processing in `named_registers.py`: the
`IndexError` from `values[0]` on an empty split, a `ValueError` from
`int()`, the `ValueError` from unpacking `middle, end = values[1:]`, the
`assert middle == '..'` failure (`Malformed range`), and the `ValueError`
from unpacking `name, value` when a field entry is not a pair. -/
inductive FixErr where
  | indexError
  | intValueError
  | rangeUnpackError
  | assertMalformedRange
  | fieldUnpackError
deriving Repr, DecidableEq

/-- `fixup_fields(name, value)` from `named_registers.py`: a field value is
either a single register base or `start .. end`, and the element count of a
range is `end - start + 1`. -/
def fixup_fields (name : List Char) (value : List Char) :
    Except FixErr (List Char × Int × Int) :=
  match pySplit value with
  | [] => Except.error FixErr.indexError
  | v0 :: rest =>
    match pyInt v0 with
    | none => Except.error FixErr.intValueError
    | some start =>
      match rest with
      | [] => Except.ok (name, start, 1)
      | [middle, endv] =>
        if middle = ['.', '.'] then
          match pyInt endv with
          | none => Except.error FixErr.intValueError
          | some e => Except.ok (name, start, e - start + 1)
        else Except.error FixErr.assertMalformedRange
      | _ => Except.error FixErr.rangeUnpackError

/-- `[fixup_fields(name, value) for name, value in fields]`: each stored
field entry must unpack as a `(name, value)` pair before being fixed up. -/
def fixupAll : List (List (List Char)) → Except FixErr (List (List Char × Int × Int))
  | [] => Except.ok []
  | entry :: rest =>
    match entry with
    | [name, value] =>
      match fixup_fields name value with
      | Except.error e => Except.error e
      | Except.ok r =>
        match fixupAll rest with
        | Except.error e => Except.error e
        | Except.ok rs => Except.ok (r :: rs)
    | _ => Except.error FixErr.fieldUnpackError

/-- Shift a significant line's physical line number by `k`. -/
def shiftLine (k : Nat) (l : SigLine) : SigLine :=
  ⟨l.lineNo + k, l.indent, l.content⟩

/-- The line-number-free part of a significant line: what the parse tree can
depend on. -/
def projLine (l : SigLine) : Nat × List Char :=
  (l.indent, l.content)

example :
    parseLevelF 9 0 []
      [⟨1, 0, ['a']⟩, ⟨2, 4, ['b']⟩, ⟨3, 8, ['c']⟩, ⟨4, 4, ['d']⟩] Tail.eof =
    some (Except.ok
      ([Parse.node ['a'] [Parse.node ['b'] [Parse.node ['c'] []], Parse.node ['d'] []]],
        [])) := rfl

example :
    parseIndentedFile [['a', '\n'], [' ', ' ', 'b', '\n'], ['#', 'x'], ['c', '\n']] =
    some (Except.ok [Parse.node ['a'] [Parse.node ['b'] []], Parse.node ['c'] []]) := rfl

example : pySplit " a  b c ".toList = ["a".toList, "b".toList, "c".toList] := by decide

example : pySplit1 " a  b c ".toList = ["a".toList, "b c ".toList] := by decide

example : pySplit1 "NAME".toList = ["NAME".toList] := by decide

example : pyInt " 14 ".toList = some 14 := by decide

example : pyInt "-3".toList = some (-3) := by decide

example : pyInt "..".toList = none := by decide

example :
    fixup_fields "PCAP_BITS".toList "8 .. 14".toList =
    Except.ok ("PCAP_BITS".toList, 8, 7) := by rfl

example :
    fixup_fields "PCAP_BITS".toList "8 .. 14 .. 20".toList =
    Except.error FixErr.rangeUnpackError := by rfl

example :
    fixup_fields "X".toList "8".toList = Except.ok ("X".toList, 8, 1) := by rfl

example :
    parseRegisterFile
      [['*', 'R', 'E', 'G', ' ', ' ', '0', '\n'],
        [' ', ' ', 'F', 'P', 'G', 'A', ' ', '0', '\n']] =
    some (Except.ok (Except.ok
      [(['*', 'R', 'E', 'G'], (['0'], [[['F', 'P', 'G', 'A'], ['0']]]))])) := rfl

/-- Fuel sufficiency for `parseLevelF`: with fuel `2 * length + 1` the parser
never runs out, and the unconsumed suffix it returns is never longer than its
input.  Induction on a bound for the stream length. -/
theorem parseLevelF_spec (len : Nat) :
    ∀ ls : List SigLine, ls.length ≤ len →
    ∀ fuel newIndent acc tail, 2 * ls.length + 1 ≤ fuel →
    ∃ r, parseLevelF fuel newIndent acc ls tail = some r ∧
      ∀ res rest, r = Except.ok (res, rest) → rest.length ≤ ls.length := by
  induction len with
  | zero =>
    intro ls hlen fuel newIndent acc tail hfuel
    have hls : ls = [] := List.length_eq_zero.mp (Nat.le_zero.mp hlen)
    subst hls
    obtain ⟨f, rfl⟩ : ∃ f, fuel = f + 1 := ⟨fuel - 1, by omega⟩
    cases tail with
    | eof =>
      exact ⟨Except.ok (acc.reverse, []), rfl, by intro res rest h; cases h; simp⟩
    | indexError =>
      exact ⟨Except.error (PFail.crash Tail.indexError), rfl, by intro res rest h; cases h⟩
    | assertEndOfInput =>
      exact ⟨Except.error (PFail.crash Tail.assertEndOfInput), rfl, by intro res rest h; cases h⟩
  | succ n ih =>
    intro ls hlen fuel newIndent acc tail hfuel
    cases ls with
    | nil =>
      obtain ⟨f, rfl⟩ : ∃ f, fuel = f + 1 := ⟨fuel - 1, by omega⟩
      cases tail with
      | eof =>
        exact ⟨Except.ok (acc.reverse, []), rfl, by intro res rest h; cases h; simp⟩
      | indexError =>
        exact ⟨Except.error (PFail.crash Tail.indexError), rfl, by intro res rest h; cases h⟩
      | assertEndOfInput =>
        exact ⟨Except.error (PFail.crash Tail.assertEndOfInput), rfl, by intro res rest h; cases h⟩
    | cons l rest =>
      simp only [List.length_cons] at hlen hfuel
      have hrest : rest.length ≤ n := by omega
      obtain ⟨f, rfl⟩ : ∃ f, fuel = f + 1 := ⟨fuel - 1, by omega⟩
      by_cases h1 : l.indent < newIndent
      · refine ⟨Except.ok (acc.reverse, l :: rest), ?_, ?_⟩
        · simp only [parseLevelF, if_pos h1]
        · intro res rest' h; cases h; simp
      · by_cases h2 : newIndent < l.indent
        · cases acc with
          | nil =>
            refine ⟨Except.error (PFail.parseFail l.lineNo "Invalid indentation"), ?_, ?_⟩
            · simp only [parseLevelF, if_neg h1, if_pos h2]
            · intro res rest' h; cases h
          | cons p accRest =>
            obtain ⟨v, cs⟩ := p
            cases hcs : cs.isEmpty with
            | false =>
              refine ⟨Except.error (PFail.parseFail l.lineNo "Sub-fields already parsed"), ?_, ?_⟩
              · simp only [parseLevelF, if_neg h1, if_pos h2, hcs, Bool.false_eq_true,
                  if_false]
              · intro res rest' h; cases h
            | true =>
              obtain ⟨f', rfl⟩ : ∃ f', f = f' + 1 := ⟨f - 1, by omega⟩
              obtain ⟨rIn, hrIn, hbIn⟩ :=
                ih rest hrest f' l.indent [Parse.node l.content []] tail (by omega)
              cases rIn with
              | error e =>
                refine ⟨Except.error e, ?_, by intro res rest' h; cases h⟩
                simp only [parseLevelF, if_neg h1, if_pos h2, hcs, if_true,
                  lt_self_iff_false, if_false]
                rw [hrIn]
              | ok pr =>
                obtain ⟨sub, rest2⟩ := pr
                have hb2 : rest2.length ≤ rest.length := hbIn sub rest2 rfl
                obtain ⟨r2, hr2, hbr2⟩ :=
                  ih rest2 (le_trans hb2 hrest) (f' + 1) newIndent
                    (Parse.node v sub :: accRest) tail (by omega)
                refine ⟨r2, ?_, ?_⟩
                · simp only [parseLevelF, if_neg h1, if_pos h2, hcs, if_true,
                    lt_self_iff_false, if_false]
                  rw [hrIn]
                  exact hr2
                · intro res rest' h
                  have := hbr2 res rest' h
                  simp only [List.length_cons]
                  omega
        · obtain ⟨r, hr, hb⟩ :=
            ih rest hrest f newIndent (Parse.node l.content [] :: acc) tail (by omega)
          refine ⟨r, ?_, ?_⟩
          · simp only [parseLevelF, if_neg h1, if_neg h2]
            exact hr
          · intro res rest' h
            have := hb res rest' h
            simp only [List.length_cons]
            omega

/-- Starting the counter higher only shifts the reported line numbers. -/
theorem readLines_shift (k : Nat) :
    ∀ (raw : List (List Char)) (n : Nat),
      readLines (n + k) raw =
        ((readLines n raw).1.map (shiftLine k), (readLines n raw).2) := by
  intro raw
  induction raw with
  | nil => intro n; rfl
  | cons l rest ih =>
    intro n
    simp only [readLines]
    cases hl : lstripSpaces l with
    | nil => rfl
    | cons c cs =>
      by_cases hc : c = '#' ∨ c = '\n'
      · simp only [if_pos hc]
        rw [Nat.add_right_comm n k 1]
        exact ih (n + 1)
      · by_cases ht : (c :: cs).getLast? = some '\n'
        · simp only [if_neg hc, if_pos ht, List.map_cons]
          rw [Nat.add_right_comm n k 1, ih (n + 1)]
          rfl
        · simp only [if_neg hc, if_neg ht]
          rfl

/-- The projected stream and the terminal event do not depend on the
starting value of the counter. -/
theorem readLines_proj_tail (raw : List (List Char)) :
    ∀ n m : Nat,
      (readLines n raw).1.map projLine = (readLines m raw).1.map projLine ∧
      (readLines n raw).2 = (readLines m raw).2 := by
  induction raw with
  | nil => intro n m; exact ⟨rfl, rfl⟩
  | cons l rest ih =>
    intro n m
    cases hl : lstripSpaces l with
    | nil => simp [readLines, hl]
    | cons c cs =>
      by_cases hc : c = '#' ∨ c = '\n'
      · simp only [readLines, hl, if_pos hc]
        exact ih (n + 1) (m + 1)
      · by_cases ht : (c :: cs).getLast? = some '\n'
        · simp only [readLines, hl, if_neg hc, if_pos ht, List.map_cons]
          refine ⟨?_, (ih (n + 1) (m + 1)).2⟩
          rw [(ih (n + 1) (m + 1)).1]
          simp [projLine]
        · simp [readLines, hl, hc, ht]

/-- Reading a concatenation whose first part ends in normal exhaustion. -/
theorem readLines_append_eof :
    ∀ (A B : List (List Char)) (n : Nat), (readLines n A).2 = Tail.eof →
      readLines n (A ++ B) =
        ((readLines n A).1 ++ (readLines (n + A.length) B).1,
          (readLines (n + A.length) B).2) := by
  intro A
  induction A with
  | nil => intro B n _; simp [readLines]
  | cons l rest ih =>
    intro B n h
    cases hl : lstripSpaces l with
    | nil => simp [readLines, hl] at h
    | cons c cs =>
      by_cases hc : c = '#' ∨ c = '\n'
      · simp only [readLines, hl, if_pos hc, List.cons_append, List.length_cons] at h ⊢
        rw [show n + (rest.length + 1) = n + 1 + rest.length by omega]
        exact ih B (n + 1) h
      · by_cases ht : (c :: cs).getLast? = some '\n'
        · simp only [readLines, hl, if_neg hc, if_pos ht, List.cons_append,
            List.length_cons, List.append_eq] at h ⊢
          rw [show n + (rest.length + 1) = n + 1 + rest.length by omega,
            ih B (n + 1) h]
        · simp [readLines, hl, if_neg hc, if_neg ht] at h

/-- Reading a concatenation whose first part ends in a reader crash: the
second part is never reached. -/
theorem readLines_append_stuck :
    ∀ (A B : List (List Char)) (n : Nat), (readLines n A).2 ≠ Tail.eof →
      readLines n (A ++ B) = readLines n A := by
  intro A
  induction A with
  | nil => intro B n h; exact absurd rfl h
  | cons l rest ih =>
    intro B n h
    cases hl : lstripSpaces l with
    | nil => simp only [readLines, hl, List.cons_append]
    | cons c cs =>
      by_cases hc : c = '#' ∨ c = '\n'
      · simp only [readLines, hl, if_pos hc, List.cons_append] at h ⊢
        exact ih B (n + 1) h
      · by_cases ht : (c :: cs).getLast? = some '\n'
        · simp only [readLines, hl, if_neg hc, if_pos ht, List.cons_append,
            List.append_eq] at h ⊢
          rw [ih B (n + 1) h]
        · simp only [readLines, hl, if_neg hc, if_neg ht, List.cons_append]

/-- Every significant line's reported number is within the physical file. -/
theorem readLines_lineNo_le :
    ∀ (raw : List (List Char)) (n : Nat) (l : SigLine),
      l ∈ (readLines n raw).1 → l.lineNo ≤ n + raw.length := by
  intro raw
  induction raw with
  | nil => intro n l h; simp [readLines] at h
  | cons x rest ih =>
    intro n l h
    cases hl : lstripSpaces x with
    | nil => simp [readLines, hl] at h
    | cons c cs =>
      by_cases hc : c = '#' ∨ c = '\n'
      · simp only [readLines, hl, if_pos hc] at h
        have := ih (n + 1) l h
        simp only [List.length_cons]
        omega
      · by_cases ht : (c :: cs).getLast? = some '\n'
        · simp only [readLines, hl, if_neg hc, if_pos ht, List.mem_cons] at h
          rcases h with h | h
          · subst h
            simp only [List.length_cons]
            omega
          · have := ih (n + 1) l h
            simp only [List.length_cons]
            omega
        · simp [readLines, hl, if_neg hc, if_neg ht] at h

/-- Inserting `k` lines grows the raw file by exactly `k` lines. -/
theorem insertSkips_length {L L' : List (List Char)} {k : Nat}
    (h : InsertSkips L L' k) : L'.length = L.length + k := by
  induction h with
  | nil => rfl
  | keep l h ih => simp only [List.length_cons, ih]; omega
  | ins l hs h ih => simp only [List.length_cons, ih]; omega

/-- Inserting skippable lines anywhere leaves the projected significant
stream and the terminal event unchanged. -/
theorem insertSkips_readLines {L L' : List (List Char)} {k : Nat}
    (h : InsertSkips L L' k) :
    ∀ n, (readLines n L').1.map projLine = (readLines n L).1.map projLine ∧
      (readLines n L').2 = (readLines n L).2 := by
  induction h with
  | nil => intro n; exact ⟨rfl, rfl⟩
  | @keep M M' j l h ih =>
    intro n
    cases hl : lstripSpaces l with
    | nil => simp [readLines, hl]
    | cons c cs =>
      by_cases hc : c = '#' ∨ c = '\n'
      · simp only [readLines, hl, if_pos hc]
        exact ih (n + 1)
      · by_cases ht : (c :: cs).getLast? = some '\n'
        · simp only [readLines, hl, if_neg hc, if_pos ht, List.map_cons]
          exact ⟨by rw [(ih (n + 1)).1], (ih (n + 1)).2⟩
        · simp [readLines, hl, hc, ht]
  | @ins M M' j l hs h ih =>
    intro n
    obtain ⟨c, cs, hl, hc⟩ : ∃ c cs, lstripSpaces l = c :: cs ∧ (c = '#' ∨ c = '\n') := by
      cases hlsl : lstripSpaces l with
      | nil => simp [skippable, hlsl] at hs
      | cons c cs =>
        simp only [skippable, hlsl, decide_eq_true_eq] at hs
        exact ⟨c, cs, rfl, hs⟩
    simp only [readLines, hl, if_pos hc]
    have h1 := readLines_proj_tail M' (n + 1) n
    exact ⟨h1.1.trans (ih n).1, h1.2.trans (ih n).2⟩

/-- `getD` after `drop` indexes into the original list. -/
theorem sigGetD_drop (ls : List SigLine) :
    ∀ j i, (ls.drop j).getD i default = ls.getD (j + i) default := by
  induction ls with
  | nil => intro j i; simp
  | cons l r ih =>
    intro j i
    cases j with
    | zero => simp
    | succ j' =>
      rw [List.drop_succ_cons, ih j' i, show j' + 1 + i = (j' + i) + 1 by omega,
        List.getD_cons_succ]

/-- An in-bounds `getD` is a member. -/
theorem sigGetD_mem :
    ∀ (ls : List SigLine) (i : Nat), i < ls.length → ls.getD i default ∈ ls := by
  intro ls
  induction ls with
  | nil => intro i hi; simp at hi
  | cons l r ih =>
    intro i hi
    cases i with
    | zero => simp
    | succ i' =>
      simp only [List.getD_cons_succ]
      exact List.mem_cons_of_mem _ (ih i' (by simp at hi; omega))

/-- An in-bounds `getD` through `map (shiftLine k)`. -/
theorem sigGetD_map_shift (k : Nat) :
    ∀ (ls : List SigLine) (i : Nat), i < ls.length →
      (ls.map (shiftLine k)).getD i default = shiftLine k (ls.getD i default) := by
  intro ls
  induction ls with
  | nil => intro i hi; simp at hi
  | cons l r ih =>
    intro i hi
    cases i with
    | zero => simp
    | succ i' =>
      simp only [List.map_cons, List.getD_cons_succ]
      exact ih i' (by simp at hi; omega)

/-- A successful parse depends only on the indents and contents of the
stream, not on line numbers: on any stream with the same projection it
produces the same tree and consumes the same number of lines. -/
theorem parseLevelF_ok_proj :
    ∀ (fuel newIndent : Nat) (acc : List Parse) (ls1 ls2 : List SigLine)
      (tail : Tail) (res : List Parse) (rest1 : List SigLine),
      ls1.map projLine = ls2.map projLine →
      parseLevelF fuel newIndent acc ls1 tail = some (Except.ok (res, rest1)) →
      ∃ j, j ≤ ls1.length ∧ rest1 = ls1.drop j ∧
        parseLevelF fuel newIndent acc ls2 tail = some (Except.ok (res, ls2.drop j)) := by
  intro fuel
  induction fuel with
  | zero =>
    intro newIndent acc ls1 ls2 tail res rest1 hproj h
    simp [parseLevelF] at h
  | succ f ih =>
    intro newIndent acc ls1 ls2 tail res rest1 hproj h
    cases ls1 with
    | nil =>
      have hls2 : ls2 = [] := by
        cases ls2 with
        | nil => rfl
        | cons a b => simp at hproj
      subst hls2
      cases tail with
      | eof =>
        simp only [parseLevelF, Option.some.injEq, Except.ok.injEq, Prod.mk.injEq] at h
        obtain ⟨ha, hb⟩ := h
        subst ha
        subst hb
        exact ⟨0, Nat.le_refl 0, by simp, rfl⟩
      | indexError => simp [parseLevelF] at h
      | assertEndOfInput => simp [parseLevelF] at h
    | cons l1 r1 =>
      cases ls2 with
      | nil => simp at hproj
      | cons l2 r2 =>
        simp only [List.map_cons, List.cons.injEq] at hproj
        obtain ⟨hl12, hr12⟩ := hproj
        have hind : l1.indent = l2.indent := congrArg Prod.fst hl12
        have hcont : l1.content = l2.content := congrArg Prod.snd hl12
        by_cases h1 : l1.indent < newIndent
        · simp only [parseLevelF, if_pos h1, Option.some.injEq, Except.ok.injEq,
            Prod.mk.injEq] at h
          obtain ⟨ha, hb⟩ := h
          subst ha
          refine ⟨0, Nat.zero_le _, hb.symm, ?_⟩
          have h1' : l2.indent < newIndent := hind ▸ h1
          simp only [parseLevelF, if_pos h1', List.drop_zero]
        · by_cases h2 : newIndent < l1.indent
          · have h1' : ¬ l2.indent < newIndent := by rw [← hind]; exact h1
            have h2' : newIndent < l2.indent := hind ▸ h2
            cases acc with
            | nil => simp [parseLevelF, if_neg h1, if_pos h2] at h
            | cons p accRest =>
              obtain ⟨v, cs⟩ := p
              cases hcs : cs.isEmpty with
              | false => simp [parseLevelF, if_neg h1, if_pos h2, hcs] at h
              | true =>
                simp only [parseLevelF, if_neg h1, if_pos h2, hcs, if_true] at h
                cases hin : parseLevelF f l1.indent [] (l1 :: r1) tail with
                | none =>
                  rw [hin] at h
                  have hcontra : (none : Option (Except PFail (List Parse × List SigLine))) =
                      some (Except.ok (res, rest1)) := h
                  simp at hcontra
                | some rin =>
                  cases rin with
                  | error e =>
                    rw [hin] at h
                    have hcontra : (some (Except.error e) :
                        Option (Except PFail (List Parse × List SigLine))) =
                        some (Except.ok (res, rest1)) := h
                    simp at hcontra
                  | ok pr =>
                    obtain ⟨sub, rest2⟩ := pr
                    rw [hin] at h
                    have hstep : parseLevelF f newIndent (Parse.node v sub :: accRest)
                        rest2 tail = some (Except.ok (res, rest1)) := h
                    obtain ⟨j1, hj1, hrest2, hin2⟩ :=
                      ih l1.indent [] (l1 :: r1) (l2 :: r2) tail sub rest2
                        (by simp only [List.map_cons, hl12, hr12]) hin
                    subst hrest2
                    have hproj2 : ((l1 :: r1).drop j1).map projLine =
                        ((l2 :: r2).drop j1).map projLine := by
                      rw [List.map_drop, List.map_drop]
                      simp only [List.map_cons, hl12, hr12]
                    obtain ⟨j2, hj2, hrest1, hcont2⟩ :=
                      ih newIndent (Parse.node v sub :: accRest)
                        ((l1 :: r1).drop j1) ((l2 :: r2).drop j1) tail res rest1
                        hproj2 hstep
                    refine ⟨j1 + j2, ?_, ?_, ?_⟩
                    · have hld := List.length_drop j1 (l1 :: r1)
                      omega
                    · exact hrest1.trans (List.drop_drop j2 j1 (l1 :: r1))
                    · simp only [parseLevelF, if_neg h1', if_pos h2', hcs, if_true]
                      rw [← hind, hin2]
                      exact hcont2.trans (by rw [List.drop_drop])
          · have h1' : ¬ l2.indent < newIndent := by rw [← hind]; exact h1
            have h2' : ¬ newIndent < l2.indent := by rw [← hind]; exact h2
            simp only [parseLevelF, if_neg h1, if_neg h2] at h
            obtain ⟨j, hj, hrest, hcont1⟩ :=
              ih newIndent (Parse.node l1.content [] :: acc) r1 r2 tail res rest1 hr12 h
            refine ⟨j + 1, ?_, ?_, ?_⟩
            · simp only [List.length_cons]
              omega
            · rw [List.drop_succ_cons]
              exact hrest
            · simp only [parseLevelF, if_neg h1', if_neg h2', List.drop_succ_cons]
              rw [← hcont]
              exact hcont1

/-- A `ParseFail` reports the line number of a line of the stream, and on a
stream with the same projection the same failure occurs at the line in the
same position, with the same message. -/
theorem parseLevelF_fail_proj :
    ∀ (fuel newIndent : Nat) (acc : List Parse) (ls1 ls2 : List SigLine)
      (tail : Tail) (n : Nat) (msg : String),
      ls1.map projLine = ls2.map projLine →
      parseLevelF fuel newIndent acc ls1 tail =
        some (Except.error (PFail.parseFail n msg)) →
      ∃ i, i < ls1.length ∧ (ls1.getD i default).lineNo = n ∧
        parseLevelF fuel newIndent acc ls2 tail =
          some (Except.error (PFail.parseFail ((ls2.getD i default).lineNo) msg)) := by
  intro fuel
  induction fuel with
  | zero =>
    intro newIndent acc ls1 ls2 tail n msg hproj h
    simp [parseLevelF] at h
  | succ f ih =>
    intro newIndent acc ls1 ls2 tail n msg hproj h
    cases ls1 with
    | nil => cases tail <;> simp [parseLevelF] at h
    | cons l1 r1 =>
      cases ls2 with
      | nil => simp at hproj
      | cons l2 r2 =>
        simp only [List.map_cons, List.cons.injEq] at hproj
        obtain ⟨hl12, hr12⟩ := hproj
        have hind : l1.indent = l2.indent := congrArg Prod.fst hl12
        have hcnt : l1.content = l2.content := congrArg Prod.snd hl12
        by_cases h1 : l1.indent < newIndent
        · simp [parseLevelF, if_pos h1] at h
        · by_cases h2 : newIndent < l1.indent
          · have h1' : ¬ l2.indent < newIndent := by rw [← hind]; exact h1
            have h2' : newIndent < l2.indent := hind ▸ h2
            cases acc with
            | nil =>
              simp only [parseLevelF, if_neg h1, if_pos h2, Option.some.injEq,
                Except.error.injEq, PFail.parseFail.injEq] at h
              obtain ⟨hn, hmsg⟩ := h
              refine ⟨0, by simp, by simpa using hn, ?_⟩
              simp only [parseLevelF, if_neg h1', if_pos h2', List.getD_cons_zero, ← hmsg]
            | cons p accRest =>
              obtain ⟨v, cs⟩ := p
              cases hcs : cs.isEmpty with
              | false =>
                simp only [parseLevelF, if_neg h1, if_pos h2, hcs, Bool.false_eq_true,
                  if_false, Option.some.injEq, Except.error.injEq,
                  PFail.parseFail.injEq] at h
                obtain ⟨hn, hmsg⟩ := h
                refine ⟨0, by simp, by simpa using hn, ?_⟩
                simp only [parseLevelF, if_neg h1', if_pos h2', hcs, Bool.false_eq_true,
                  if_false, List.getD_cons_zero, ← hmsg]
              | true =>
                simp only [parseLevelF, if_neg h1, if_pos h2, hcs, if_true] at h
                cases hin : parseLevelF f l1.indent [] (l1 :: r1) tail with
                | none =>
                  rw [hin] at h
                  have hcontra : (none : Option (Except PFail (List Parse × List SigLine))) =
                      some (Except.error (PFail.parseFail n msg)) := h
                  simp at hcontra
                | some rin =>
                  cases rin with
                  | error e =>
                    rw [hin] at h
                    have hstep : (some (Except.error e) :
                        Option (Except PFail (List Parse × List SigLine))) =
                        some (Except.error (PFail.parseFail n msg)) := h
                    have he : e = PFail.parseFail n msg := by simpa using hstep
                    subst he
                    obtain ⟨i, hi, hlNo, hin2⟩ :=
                      ih l1.indent [] (l1 :: r1) (l2 :: r2) tail n msg
                        (by simp only [List.map_cons, hl12, hr12]) hin
                    refine ⟨i, hi, hlNo, ?_⟩
                    simp only [parseLevelF, if_neg h1', if_pos h2', hcs, if_true]
                    rw [← hind, hin2]
                  | ok pr =>
                    obtain ⟨sub, rest2⟩ := pr
                    rw [hin] at h
                    have hstep : parseLevelF f newIndent (Parse.node v sub :: accRest)
                        rest2 tail = some (Except.error (PFail.parseFail n msg)) := h
                    obtain ⟨j1, hj1, hrest2, hin2⟩ :=
                      parseLevelF_ok_proj f l1.indent [] (l1 :: r1) (l2 :: r2) tail sub
                        rest2 (by simp only [List.map_cons, hl12, hr12]) hin
                    subst hrest2
                    have hproj2 : ((l1 :: r1).drop j1).map projLine =
                        ((l2 :: r2).drop j1).map projLine := by
                      rw [List.map_drop, List.map_drop]
                      simp only [List.map_cons, hl12, hr12]
                    obtain ⟨i2, hi2, hlNo2, hcont2⟩ :=
                      ih newIndent (Parse.node v sub :: accRest) ((l1 :: r1).drop j1)
                        ((l2 :: r2).drop j1) tail n msg hproj2 hstep
                    refine ⟨j1 + i2, ?_, ?_, ?_⟩
                    · have hld := List.length_drop j1 (l1 :: r1)
                      omega
                    · rw [← sigGetD_drop]
                      exact hlNo2
                    · simp only [parseLevelF, if_neg h1', if_pos h2', hcs, if_true]
                      rw [← hind, hin2]
                      refine hcont2.trans ?_
                      rw [sigGetD_drop]
          · have h1' : ¬ l2.indent < newIndent := by rw [← hind]; exact h1
            have h2' : ¬ newIndent < l2.indent := by rw [← hind]; exact h2
            simp only [parseLevelF, if_neg h1, if_neg h2] at h
            obtain ⟨i, hi, hlNo, hcont1⟩ :=
              ih newIndent (Parse.node l1.content [] :: acc) r1 r2 tail n msg hr12 h
            refine ⟨i + 1, ?_, ?_, ?_⟩
            · simp only [List.length_cons]
              omega
            · simpa [List.getD_cons_succ] using hlNo
            · simp only [parseLevelF, if_neg h1', if_neg h2', List.getD_cons_succ]
              rw [← hcnt]
              exact hcont1

/-- At top level (expected indent 0) a successful parse must have consumed
the stream to its end: no line has indent below 0, so the only `ok` exit is
normal exhaustion. -/
theorem parseLevelF_zero_ok_eof :
    ∀ (fuel : Nat) (acc : List Parse) (ls : List SigLine) (tail : Tail)
      (res : List Parse) (rest : List SigLine),
      parseLevelF fuel 0 acc ls tail = some (Except.ok (res, rest)) →
      tail = Tail.eof := by
  intro fuel
  induction fuel with
  | zero =>
    intro acc ls tail res rest h
    simp [parseLevelF] at h
  | succ f ih =>
    intro acc ls tail res rest h
    cases ls with
    | nil =>
      cases tail with
      | eof => rfl
      | indexError => simp [parseLevelF] at h
      | assertEndOfInput => simp [parseLevelF] at h
    | cons l r =>
      have h1 : ¬ l.indent < 0 := Nat.not_lt_zero _
      by_cases h2 : 0 < l.indent
      · cases acc with
        | nil => simp [parseLevelF, if_neg h1, if_pos h2] at h
        | cons p accRest =>
          obtain ⟨v, cs⟩ := p
          cases hcs : cs.isEmpty with
          | false => simp [parseLevelF, if_neg h1, if_pos h2, hcs] at h
          | true =>
            simp only [parseLevelF, if_neg h1, if_pos h2, hcs, if_true] at h
            cases hin : parseLevelF f l.indent [] (l :: r) tail with
            | none =>
              rw [hin] at h
              have hcontra : (none : Option (Except PFail (List Parse × List SigLine))) =
                  some (Except.ok (res, rest)) := h
              simp at hcontra
            | some rin =>
              cases rin with
              | error e =>
                rw [hin] at h
                have hcontra : (some (Except.error e) :
                    Option (Except PFail (List Parse × List SigLine))) =
                    some (Except.ok (res, rest)) := h
                simp at hcontra
              | ok pr =>
                obtain ⟨sub, rest2⟩ := pr
                rw [hin] at h
                have hstep : parseLevelF f 0 (Parse.node v sub :: accRest) rest2 tail =
                    some (Except.ok (res, rest)) := h
                exact ih _ rest2 tail res rest hstep
      · simp only [parseLevelF, if_neg h1, if_neg h2] at h
        exact ih _ r tail res rest h

/-- A raw line the reader cannot get past prevents normal exhaustion. -/
theorem readLines_consumable_false_not_eof :
    ∀ (raw : List (List Char)) (n : Nat) (l : List Char),
      l ∈ raw → consumable l = false → (readLines n raw).2 ≠ Tail.eof := by
  intro raw
  induction raw with
  | nil => intro n l hmem; simp at hmem
  | cons x rest ih =>
    intro n l hmem hcons
    cases hl : lstripSpaces x with
    | nil => simp [readLines, hl]
    | cons c cs =>
      by_cases hc : c = '#' ∨ c = '\n'
      · simp only [readLines, hl, if_pos hc]
        rcases List.mem_cons.mp hmem with rfl | hmem'
        · simp [consumable, hl, hc] at hcons
        · exact ih (n + 1) l hmem' hcons
      · by_cases ht : (c :: cs).getLast? = some '\n'
        · simp only [readLines, hl, if_neg hc, if_pos ht]
          rcases List.mem_cons.mp hmem with rfl | hmem'
          · simp [consumable, hl, hc, ht] at hcons
          · exact ih (n + 1) l hmem' hcons
        · simp [readLines, hl, hc, ht]

/-- A file of consumable lines is read to normal exhaustion. -/
theorem readLines_all_consumable_eof :
    ∀ (raw : List (List Char)) (n : Nat),
      (∀ p ∈ raw, consumable p = true) → (readLines n raw).2 = Tail.eof := by
  intro raw
  induction raw with
  | nil => intro n _; rfl
  | cons x rest ih =>
    intro n hall
    have hx := hall x (List.mem_cons_self x rest)
    cases hl : lstripSpaces x with
    | nil => simp [consumable, hl] at hx
    | cons c cs =>
      by_cases hc : c = '#' ∨ c = '\n'
      · simp only [readLines, hl, if_pos hc]
        exact ih (n + 1) (fun p hp => hall p (List.mem_cons_of_mem x hp))
      · by_cases ht : (c :: cs).getLast? = some '\n'
        · simp only [readLines, hl, if_neg hc, if_pos ht]
          exact ih (n + 1) (fun p hp => hall p (List.mem_cons_of_mem x hp))
        · simp [consumable, hl, hc, ht] at hx

/-- Shifting line numbers does not change the projected stream. -/
theorem map_proj_shift (k : Nat) :
    ∀ s : List SigLine, (s.map (shiftLine k)).map projLine = s.map projLine := by
  intro s
  induction s with
  | nil => rfl
  | cons l r ih => simp only [List.map_cons, ih]; rfl

/-- **C1.** For an input whose significant lines are `a, b, c, d` with
indents `0, 4, 8, 4` in that order (physical lines 1–4),
`parse_indent_level(0, lines)` returns `[[a, [[b, [[c, []]]], [d, []]]]]`,
consuming the whole stream: children appear in input order, and the dedent
line `d` becomes a sibling of `b`, not a child or sibling of `c`. -/
theorem c1_nesting_example (a b c d : List Char) :
    parseLevelF 9 0 []
      [⟨1, 0, a⟩, ⟨2, 4, b⟩, ⟨3, 8, c⟩, ⟨4, 4, d⟩] Tail.eof =
    some (Except.ok
      ([Parse.node a [Parse.node b [Parse.node c []], Parse.node d []]], [])) := rfl

/-- **C4.** Whenever `parse_indent_level` reads a line whose indent exceeds
the expected indent while the most recently appended sibling already has a
non-empty children list, it raises `ParseFail` with message
`Sub-fields already parsed`; concretely, indents `0, 4, 8, 2` assign two
indent increases to the first sibling and are rejected at line 4. -/
theorem c4_duplicate_nesting :
    (∀ (fuel newIndent : Nat) (l : SigLine) (rest : List SigLine) (tail : Tail)
      (v : List Char) (c : Parse) (cs accRest : List Parse),
      newIndent < l.indent →
      parseLevelF (fuel + 1) newIndent (Parse.node v (c :: cs) :: accRest)
        (l :: rest) tail =
        some (Except.error (PFail.parseFail l.lineNo "Sub-fields already parsed"))) ∧
    (∀ a b c d : List Char,
      parseLevelF 9 0 []
        [⟨1, 0, a⟩, ⟨2, 4, b⟩, ⟨3, 8, c⟩, ⟨4, 2, d⟩] Tail.eof =
        some (Except.error (PFail.parseFail 4 "Sub-fields already parsed"))) := by
  constructor
  · intro fuel newIndent l rest tail v c cs accRest h
    simp only [parseLevelF, if_neg (Nat.lt_asymm h), if_pos h, List.isEmpty_cons,
      Bool.false_eq_true, if_false]
  · intro a b c d
    rfl

theorem c4_duplicate_nesting_witness :
    parseLevelF 1 0 [Parse.node ['a'] [Parse.node ['b'] []]] [⟨4, 2, ['d']⟩] Tail.eof =
      some (Except.error (PFail.parseFail 4 "Sub-fields already parsed")) ∧
    parseLevelF 9 0 []
      [⟨1, 0, ['a']⟩, ⟨2, 4, ['b']⟩, ⟨3, 8, ['c']⟩, ⟨4, 2, ['d']⟩] Tail.eof =
      some (Except.error (PFail.parseFail 4 "Sub-fields already parsed")) :=
  ⟨c4_duplicate_nesting.1 0 0 ⟨4, 2, ['d']⟩ [] Tail.eof ['a'] (Parse.node ['b'] [])
      [] [] (by decide),
    c4_duplicate_nesting.2 ['a'] ['b'] ['c'] ['d']⟩

/-- **C10.** `parse_indent_level` terminates on every finite stream of
significant lines, for every expected indent, accumulator and terminal
event: with fuel at least `2·length + 1` the fuel-indexed model never runs
out, so the recursion always ends in a result or a failure. -/
theorem c10_parse_terminates (fuel newIndent : Nat) (acc : List Parse)
    (ls : List SigLine) (tail : Tail) (h : 2 * ls.length + 1 ≤ fuel) :
    (parseLevelF fuel newIndent acc ls tail).isSome = true := by
  obtain ⟨r, hr, -⟩ :=
    parseLevelF_spec ls.length ls (Nat.le_refl _) fuel newIndent acc tail h
  rw [hr]
  rfl

theorem c10_parse_terminates_witness :
    2 * ([⟨1, 4, ['x']⟩] : List SigLine).length + 1 ≤ 3 ∧
    (parseLevelF 3 0 [] [⟨1, 4, ['x']⟩] Tail.eof).isSome = true :=
  ⟨by decide, c10_parse_terminates 3 0 [] [⟨1, 4, ['x']⟩] Tail.eof (by decide)⟩

/-- **C3** counterexample: a file whose first significant line is indented
but preceded by a comment line fails with `ParseFail` at line 2, not at
line 1 as claimed. -/
theorem c3_line_number_cex :
    parseIndentedFile [['#', 'c', '\n'], [' ', ' ', 'a', '\n']] =
      some (Except.error (PFail.parseFail 2 "Invalid indentation")) ∧ (2 : Nat) ≠ 1 :=
  ⟨rfl, by decide⟩

/-- **C3** amended.  Whenever `parse_indent_level` reads a line with indent
strictly greater than expected while its accumulated result is empty, it
raises `ParseFail` with message `Invalid indentation`; in particular a file
whose first significant line has positive indent fails with `ParseFail`
whose `line_no` is the physical line number of that first significant line
(1 exactly when no comment or blank lines precede it). -/
theorem c3_invalid_indentation :
    (∀ (fuel newIndent : Nat) (l : SigLine) (rest : List SigLine) (tail : Tail),
      newIndent < l.indent →
      parseLevelF (fuel + 1) newIndent [] (l :: rest) tail =
        some (Except.error (PFail.parseFail l.lineNo "Invalid indentation"))) ∧
    (∀ (raw : List (List Char)) (l : SigLine) (srest : List SigLine),
      (readLines 0 raw).1 = l :: srest → 0 < l.indent →
      parseIndentedFile raw =
        some (Except.error (PFail.parseFail l.lineNo "Invalid indentation"))) := by
  constructor
  · intro fuel newIndent l rest tail h
    simp only [parseLevelF, if_neg (Nat.lt_asymm h), if_pos h]
  · intro raw l srest hstream h
    simp only [parseIndentedFile]
    rw [hstream]
    simp only [List.length_cons, parseLevelF, if_neg (Nat.not_lt_zero _), if_pos h]

theorem c3_invalid_indentation_witness :
    parseLevelF 1 0 [] [⟨1, 4, ['a']⟩] Tail.eof =
      some (Except.error (PFail.parseFail 1 "Invalid indentation")) ∧
    parseIndentedFile [[' ', ' ', ' ', ' ', 'a', '\n']] =
      some (Except.error (PFail.parseFail 1 "Invalid indentation")) :=
  ⟨c3_invalid_indentation.1 0 0 ⟨1, 4, ['a']⟩ [] Tail.eof (by decide),
    c3_invalid_indentation.2 [[' ', ' ', ' ', ' ', 'a', '\n']] ⟨1, 4, ['a']⟩ []
      rfl (by decide)⟩

/-- **C2** counterexample: appending one blank line of spaces only with no
trailing terminator to the one-line file `a\n` makes the parse crash with
the `IndexError` of the reader instead of yielding the same tree, so inserting
blank lines is not always tree-preserving. -/
theorem c2_blank_no_terminator_cex :
    parseIndentedFile [['a', '\n']] = some (Except.ok [Parse.node ['a'] []]) ∧
    parseIndentedFile [['a', '\n'], [' ', ' ']] =
      some (Except.error (PFail.crash Tail.indexError)) :=
  ⟨rfl, rfl⟩

/-- **C2** amended.  Inserting any number of lines that the reader skips —
comment lines, and blank lines carrying their terminator — at any positions
and any indentations yields exactly the same parse tree as the input with
those lines removed; a spaces-only line without terminator is instead an
`IndexError` crash. -/
theorem c2_skippable_insertion_preserves_tree
    (L L' : List (List Char)) (k : Nat) (t : List Parse)
    (hins : InsertSkips L L' k)
    (hok : parseIndentedFile L = some (Except.ok t)) :
    parseIndentedFile L' = some (Except.ok t) := by
  have hsig := insertSkips_readLines hins 0
  have hlen : (readLines 0 L').1.length = (readLines 0 L).1.length := by
    have := congrArg List.length hsig.1
    simpa using this
  simp only [parseIndentedFile] at hok ⊢
  cases hp : parseLevelF (2 * (readLines 0 L).1.length + 1) 0 [] (readLines 0 L).1
      (readLines 0 L).2 with
  | none => rw [hp] at hok; simp at hok
  | some r =>
    cases r with
    | error e => rw [hp] at hok; simp at hok
    | ok pr =>
      obtain ⟨res, rem⟩ := pr
      rw [hp] at hok
      have hres : res = t := by simpa using hok
      subst hres
      obtain ⟨j, hj, hrem, hp2⟩ :=
        parseLevelF_ok_proj (2 * (readLines 0 L).1.length + 1) 0 []
          (readLines 0 L).1 (readLines 0 L').1 (readLines 0 L).2 res rem
          hsig.1.symm hp
      rw [hlen, hsig.2, hp2]

theorem c2_skippable_insertion_preserves_tree_witness :
    InsertSkips [['a', '\n']] [['#', 'x'], ['a', '\n']] 1 ∧
    parseIndentedFile [['a', '\n']] = some (Except.ok [Parse.node ['a'] []]) ∧
    parseIndentedFile [['#', 'x'], ['a', '\n']] =
      some (Except.ok [Parse.node ['a'] []]) :=
  ⟨InsertSkips.ins _ (by decide) (InsertSkips.keep _ InsertSkips.nil),
    rfl,
    c2_skippable_insertion_preserves_tree _ _ 1 _
      (InsertSkips.ins _ (by decide) (InsertSkips.keep _ InsertSkips.nil)) rfl⟩

/-- **C5** counterexample: a file whose final physical line is a comment
line with no trailing terminator parses successfully — the missing
terminator is silently tolerated, not a fatal error. -/
theorem c5_comment_no_terminator_cex :
    parseIndentedFile [['a', '\n'], ['#', 'x']] =
      some (Except.ok [Parse.node ['a'] []]) := rfl

/-- **C5** amended.  A line that is neither skippable nor a terminated
significant line (that is, a significant line lacking its terminator, or a
spaces-only line lacking its terminator) makes every parse containing it
fail; after a prefix of consumable lines, a final spaces-only unterminated
line crashes the reader with `IndexError` and a final significant
unterminated line fails the end-of-input assertion of the reader.  A final
unterminated comment line, by contrast, is tolerated
(`c5_comment_no_terminator_cex`). -/
theorem c5_unterminated_final_line :
    (∀ (raw : List (List Char)) (l : List Char), l ∈ raw → consumable l = false →
      ∀ t : List Parse, parseIndentedFile raw ≠ some (Except.ok t)) ∧
    (∀ (prev : List (List Char)) (l : List Char) (n : Nat),
      (∀ p ∈ prev, consumable p = true) → lstripSpaces l = [] →
      (readLines n (prev ++ [l])).2 = Tail.indexError) ∧
    (∀ (prev : List (List Char)) (l : List Char) (n : Nat),
      (∀ p ∈ prev, consumable p = true) → lstripSpaces l ≠ [] →
      consumable l = false →
      (readLines n (prev ++ [l])).2 = Tail.assertEndOfInput) := by
  refine ⟨?_, ?_, ?_⟩
  · intro raw l hmem hcons t hok
    have hne : (readLines 0 raw).2 ≠ Tail.eof :=
      readLines_consumable_false_not_eof raw 0 l hmem hcons
    simp only [parseIndentedFile] at hok
    cases hp : parseLevelF (2 * (readLines 0 raw).1.length + 1) 0 []
        (readLines 0 raw).1 (readLines 0 raw).2 with
    | none => rw [hp] at hok; simp at hok
    | some r =>
      cases r with
      | error e => rw [hp] at hok; simp at hok
      | ok pr =>
        obtain ⟨res, rem⟩ := pr
        exact hne (parseLevelF_zero_ok_eof _ _ _ _ _ _ hp)
  · intro prev l n hall hblank
    rw [readLines_append_eof prev [l] n (readLines_all_consumable_eof prev n hall)]
    simp [readLines, hblank]
  · intro prev l n hall hne hcons
    rw [readLines_append_eof prev [l] n (readLines_all_consumable_eof prev n hall)]
    cases hl : lstripSpaces l with
    | nil => exact absurd hl hne
    | cons c cs =>
      have hc : ¬ (c = '#' ∨ c = '\n') := by
        intro hc
        simp [consumable, hl, hc] at hcons
      have ht : ¬ (c :: cs).getLast? = some '\n' := by
        intro ht
        simp [consumable, hl, ht] at hcons
      simp [readLines, hl, hc, ht]

theorem c5_unterminated_final_line_witness :
    parseIndentedFile [['a']] ≠ some (Except.ok []) ∧
    (readLines 0 ([['a', '\n']] ++ [[' ', ' ']])).2 = Tail.indexError ∧
    (readLines 0 ([['a', '\n']] ++ [['b']])).2 = Tail.assertEndOfInput :=
  ⟨c5_unterminated_final_line.1 [['a']] ['a'] (by decide) (by decide) [],
    c5_unterminated_final_line.2.1 [['a', '\n']] [' ', ' '] 0 (by decide) (by decide),
    c5_unterminated_final_line.2.2 [['a', '\n']] ['b'] 0 (by decide) (by decide)
      (by decide)⟩

/-- **C6.** On a parse failure the reported number is the physical line
number (counting comment and blank lines) of a line of the file, and
inserting `k` comment or blank lines anywhere among the lines preceding the
error-triggering line `n` (as a block-insertion into the first `C` lines
with `|C| < n`) yields exactly the same failure message with the reported
line number increased by exactly `k`. -/
theorem c6_error_line_shift
    (C C' D : List (List Char)) (k n : Nat) (msg : String)
    (hins : InsertSkips C C' k)
    (hfail : parseIndentedFile (C ++ D) =
      some (Except.error (PFail.parseFail n msg)))
    (hbefore : C.length < n) :
    parseIndentedFile (C' ++ D) =
      some (Except.error (PFail.parseFail (n + k) msg)) := by
  simp only [parseIndentedFile] at hfail ⊢
  cases hp : parseLevelF (2 * (readLines 0 (C ++ D)).1.length + 1) 0 []
      (readLines 0 (C ++ D)).1 (readLines 0 (C ++ D)).2 with
  | none => rw [hp] at hfail; simp at hfail
  | some r =>
    cases r with
    | ok pr =>
      obtain ⟨res, rem⟩ := pr
      rw [hp] at hfail
      simp at hfail
    | error e =>
      rw [hp] at hfail
      have he : e = PFail.parseFail n msg := by simpa using hfail
      subst he
      by_cases heof : (readLines 0 C).2 = Tail.eof
      · have hCD := readLines_append_eof C D 0 heof
        simp only [Nat.zero_add] at hCD
        have hsig := insertSkips_readLines hins 0
        have heof' : (readLines 0 C').2 = Tail.eof := hsig.2.trans heof
        have hC'D := readLines_append_eof C' D 0 heof'
        simp only [Nat.zero_add] at hC'D
        have hlenC' : C'.length = C.length + k := insertSkips_length hins
        have hshift := readLines_shift k D C.length
        have hlen1 : (readLines 0 C').1.length = (readLines 0 C).1.length := by
          have := congrArg List.length hsig.1
          simpa using this
        have hCD1 : (readLines 0 (C ++ D)).1 =
            (readLines 0 C).1 ++ (readLines C.length D).1 := by rw [hCD]
        have hCD2 : (readLines 0 (C ++ D)).2 = (readLines C.length D).2 := by
          rw [hCD]
        have hC'D1 : (readLines 0 (C' ++ D)).1 =
            (readLines 0 C').1 ++ (readLines C.length D).1.map (shiftLine k) := by
          rw [hC'D, hlenC', hshift]
        have hC'D2 : (readLines 0 (C' ++ D)).2 = (readLines C.length D).2 := by
          rw [hC'D, hlenC', hshift]
        rw [hCD1, hCD2] at hp
        have hproj : ((readLines 0 C).1 ++ (readLines C.length D).1).map projLine =
            ((readLines 0 C').1 ++ (readLines C.length D).1.map (shiftLine k)).map
              projLine := by
          simp only [List.map_append, hsig.1, map_proj_shift]
        obtain ⟨i, hi, hlNo, hp2⟩ :=
          parseLevelF_fail_proj _ 0 []
            ((readLines 0 C).1 ++ (readLines C.length D).1)
            ((readLines 0 C').1 ++ (readLines C.length D).1.map (shiftLine k))
            (readLines C.length D).2 n msg hproj hp
        have hge : (readLines 0 C).1.length ≤ i := by
          by_contra hlt
          push_neg at hlt
          have hgl := List.getD_append (readLines 0 C).1 (readLines C.length D).1
            default i hlt
          rw [hgl] at hlNo
          have hle := readLines_lineNo_le C 0 _ (sigGetD_mem _ i hlt)
          omega
        have hd1 : ((readLines 0 C).1 ++ (readLines C.length D).1).getD i default =
            (readLines C.length D).1.getD (i - (readLines 0 C).1.length) default :=
          List.getD_append_right _ _ _ _ hge
        have hiD : i - (readLines 0 C).1.length < (readLines C.length D).1.length := by
          have := List.length_append (readLines 0 C).1 (readLines C.length D).1
          omega
        have hd2 : (((readLines 0 C').1 ++
            (readLines C.length D).1.map (shiftLine k)).getD i default) =
            shiftLine k ((readLines C.length D).1.getD
              (i - (readLines 0 C).1.length) default) := by
          rw [List.getD_append_right _ _ _ _ (by rw [hlen1]; exact hge), hlen1]
          exact sigGetD_map_shift k _ _ hiD
        rw [hd1] at hlNo
        have hlen2 : ((readLines 0 C').1 ++
            (readLines C.length D).1.map (shiftLine k)).length =
            ((readLines 0 C).1 ++ (readLines C.length D).1).length := by
          simp [hlen1]
        have hfinal : (((readLines 0 C').1 ++
            (readLines C.length D).1.map (shiftLine k)).getD i default).lineNo =
            n + k := by
          rw [hd2]
          simp only [shiftLine]
          omega
        rw [hC'D1, hC'D2, hlen2, hp2, hfinal]
      · have hstuck := readLines_append_stuck C D 0 heof
        obtain ⟨i, hi, hlNo, -⟩ :=
          parseLevelF_fail_proj _ 0 [] (readLines 0 (C ++ D)).1
            (readLines 0 (C ++ D)).1 (readLines 0 (C ++ D)).2 n msg rfl hp
        rw [hstuck] at hi hlNo
        have hle := readLines_lineNo_le C 0 _ (sigGetD_mem _ i hi)
        omega

theorem c6_error_line_shift_witness :
    InsertSkips [] [['#', 'c', '\n']] 1 ∧
    parseIndentedFile ([] ++ [[' ', ' ', 'a', '\n']]) =
      some (Except.error (PFail.parseFail 1 "Invalid indentation")) ∧
    (0 : Nat) < 1 ∧
    parseIndentedFile ([['#', 'c', '\n']] ++ [[' ', ' ', 'a', '\n']]) =
      some (Except.error (PFail.parseFail (1 + 1) "Invalid indentation")) :=
  ⟨InsertSkips.ins _ (by decide) InsertSkips.nil, rfl, by decide,
    c6_error_line_shift [] [['#', 'c', '\n']] [[' ', ' ', 'a', '\n']] 1 1
      "Invalid indentation" (InsertSkips.ins _ (by decide) InsertSkips.nil) rfl
      (by decide)⟩

/-- Splitting a non-empty whitespace-free token with `split(None, 1)`
returns the token alone, whatever has been accumulated. -/
theorem pySplit1Go_no_space :
    ∀ (nm acc : List Char), nm.all (fun c => !isPySpace c) = true →
      (acc ≠ [] ∨ nm ≠ []) → pySplit1Go nm acc = [acc.reverse ++ nm] := by
  intro nm
  induction nm with
  | nil =>
    intro acc _ hne
    have hacc : acc ≠ [] := by
      rcases hne with h | h
      · exact h
      · exact absurd rfl h
    cases acc with
    | nil => exact absurd rfl hacc
    | cons a as => simp [pySplit1Go]
  | cons c cs ih =>
    intro acc hall _
    simp only [List.all_cons, Bool.and_eq_true] at hall
    have hcns : ¬ isPySpace c = true := by simpa using hall.1
    simp only [pySplit1Go, if_neg hcns]
    rw [ih (c :: acc) hall.2 (Or.inl (by simp))]
    simp

/-- **C7** counterexample: the reduction in `parse_register_file` accepts a field
line containing no whitespace — the single-token split result is stored as
is, with no failure. -/
theorem c7_single_token_accepted_cex :
    regReduce [Parse.node ['R', ' ', '0'] [Parse.node ['N', 'M'] []]] [] =
      Except.ok [(['R'], (['0'], [[['N', 'M']]]))] := rfl

/-- **C7** amended.  `parse_register_file` splits each field line on the
first whitespace run and stores whatever the split yields, unchecked: a
whitespace-free field line is accepted as a one-token entry.  The
two-token shape is enforced only downstream, where the unpacking
of `(name, value)` pairs in `named_registers.py` fails on a one-token entry. -/
theorem c7_field_split_amended :
    (∀ (nm : List Char) (fs : List Parse) (fsres : List (List (List Char))),
      nm.all (fun c => !isPySpace c) = true → nm ≠ [] →
      regFields fs = Except.ok fsres →
      regFields (Parse.node nm [] :: fs) = Except.ok ([nm] :: fsres)) ∧
    (∀ (t : List Char) (rest : List (List (List Char))),
      fixupAll ([t] :: rest) = Except.error FixErr.fieldUnpackError) := by
  constructor
  · intro nm fs fsres hall hne hfs
    simp only [regFields, List.isEmpty_nil, if_true, hfs]
    have hsp := pySplit1Go_no_space nm [] hall (Or.inr hne)
    simp only [List.reverse_nil, List.nil_append] at hsp
    rw [pySplit1, hsp]
  · intro t rest
    rfl

theorem c7_field_split_amended_witness :
    regFields [Parse.node ['N', 'M'] []] = Except.ok [[['N', 'M']]] ∧
    fixupAll [[['N', 'M']]] = Except.error FixErr.fieldUnpackError :=
  ⟨c7_field_split_amended.1 ['N', 'M'] [] [] (by decide) (by decide) rfl,
    c7_field_split_amended.2 ['N', 'M'] []⟩

/-- The field loop fails exactly on a nested field node, and its only
possible failure is the sub-field assertion. -/
theorem regFields_nested :
    ∀ fs : List Parse,
      (regFields fs = Except.error RegErr.assertSubField ↔
        ∃ q ∈ fs, q.children ≠ []) ∧
      (∀ e, regFields fs = Except.error e → e = RegErr.assertSubField) := by
  intro fs
  induction fs with
  | nil =>
    refine ⟨⟨fun h => ?_, fun h => ?_⟩, fun e h => ?_⟩
    · simp [regFields] at h
    · obtain ⟨q, hq, -⟩ := h
      simp at hq
    · simp [regFields] at h
  | cons p rest ih =>
    obtain ⟨v, cs⟩ := p
    cases hcs : cs.isEmpty with
    | true =>
      have hcs' : cs = [] := by
        cases cs with
        | nil => rfl
        | cons a b => simp at hcs
      subst hcs'
      cases hrf : regFields rest with
      | error e =>
        have he := ih.2 e hrf
        subst he
        refine ⟨⟨fun _ => ?_, fun _ => ?_⟩, fun e' h' => ?_⟩
        · obtain ⟨q, hq, hne⟩ := ih.1.mp hrf
          exact ⟨q, List.mem_cons_of_mem _ hq, hne⟩
        · simp only [regFields, List.isEmpty_nil, if_true, hrf]
        · simp only [regFields, List.isEmpty_nil, if_true, hrf,
            Except.error.injEq] at h'
          exact h'.symm
      | ok fv =>
        refine ⟨⟨fun h => ?_, fun h => ?_⟩, fun e' h' => ?_⟩
        · simp only [regFields, List.isEmpty_nil, if_true, hrf] at h
          simp at h
        · obtain ⟨q, hq, hne⟩ := h
          rcases List.mem_cons.mp hq with rfl | hq'
          · simp [Parse.children] at hne
          · exact absurd ((ih.1.mpr ⟨q, hq', hne⟩).symm.trans hrf) (by simp)
        · simp only [regFields, List.isEmpty_nil, if_true, hrf] at h'
          simp at h'
    | false =>
      have hne : cs ≠ [] := by
        cases cs with
        | nil => simp at hcs
        | cons a b => simp
      refine ⟨⟨fun _ => ?_, fun _ => ?_⟩, fun e' h' => ?_⟩
      · exact ⟨Parse.node v cs, List.mem_cons_self _ _, by simpa [Parse.children]⟩
      · simp only [regFields, hcs, Bool.false_eq_true, if_false]
      · simp only [regFields, hcs, Bool.false_eq_true, if_false,
          Except.error.injEq] at h'
        exact h'.symm

/-- **C8** counterexample: with a malformed block header before a block
whose field has children, `parse_register_file` fails with the header
unpacking error, not the sub-field assertion, even though a field node has
a non-empty children list. -/
theorem c8_bad_header_preempts_cex :
    regReduce [Parse.node ['b'] [],
        Parse.node ['R', ' ', '0'] [Parse.node ['f', ' ', '0'] [Parse.node ['x'] []]]]
      [] = Except.error RegErr.blockUnpackError ∧
    RegErr.blockUnpackError ≠ RegErr.assertSubField :=
  ⟨rfl, by decide⟩

/-- **C8** amended.  Provided every block header line splits into exactly
two whitespace-separated tokens, `parse_register_file` fails with the
sub-field assertion (`UnexpectedNesting`) if and only if some field node in
the input tree has a non-empty children list; a malformed block header
instead fails first with the header unpacking error. -/
theorem c8_unexpected_nesting (tree : List Parse)
    (hhdr : ∀ p ∈ tree, (pySplit p.value).length = 2) :
    ∀ result, (regReduce tree result = Except.error RegErr.assertSubField ↔
      ∃ p ∈ tree, ∃ q ∈ p.children, q.children ≠ []) := by
  induction tree with
  | nil =>
    intro result
    constructor
    · intro h
      simp [regReduce] at h
    · rintro ⟨p, hp, -⟩
      simp at hp
  | cons p rest ih =>
    intro result
    obtain ⟨v, cs⟩ := p
    have hp2 := hhdr (Parse.node v cs) (List.mem_cons_self _ _)
    simp only [Parse.value] at hp2
    rcases hsp : pySplit v with _ | ⟨a, _ | ⟨b, _ | ⟨c, cs'⟩⟩⟩ <;>
      rw [hsp] at hp2 <;> simp at hp2
    have ihr := ih (fun q hq => hhdr q (List.mem_cons_of_mem _ hq))
    cases hrf : regFields cs with
    | error e =>
      have he := (regFields_nested cs).2 e hrf
      subst he
      constructor
      · intro _
        obtain ⟨q, hq, hqne⟩ := (regFields_nested cs).1.mp hrf
        exact ⟨Parse.node v cs, List.mem_cons_self _ _, q, by simpa [Parse.children], hqne⟩
      · intro _
        simp only [regReduce, hsp, hrf]
    | ok fv =>
      have hnonest : ¬ ∃ q ∈ cs, q.children ≠ [] := by
        intro hq
        exact absurd (((regFields_nested cs).1.mpr hq).symm.trans hrf) (by simp)
      constructor
      · intro h
        simp only [regReduce, hsp, hrf] at h
        obtain ⟨p', hp', hq⟩ := (ihr _).mp h
        exact ⟨p', List.mem_cons_of_mem _ hp', hq⟩
      · intro h
        obtain ⟨p', hp', q, hq, hqne⟩ := h
        rcases List.mem_cons.mp hp' with rfl | hp''
        · simp only [Parse.children] at hq
          exact absurd ⟨q, hq, hqne⟩ hnonest
        · simp only [regReduce, hsp, hrf]
          exact (ihr _).mpr ⟨p', hp'', q, hq, hqne⟩

theorem c8_unexpected_nesting_witness :
    regReduce [Parse.node ['R', ' ', '0'] [Parse.node ['f'] [Parse.node ['x'] []]]]
      [] = Except.error RegErr.assertSubField :=
  (c8_unexpected_nesting
    [Parse.node ['R', ' ', '0'] [Parse.node ['f'] [Parse.node ['x'] []]]]
    (by intro p hp; simp only [List.mem_singleton] at hp; subst hp; rfl) []).mpr
    ⟨Parse.node ['R', ' ', '0'] [Parse.node ['f'] [Parse.node ['x'] []]],
      List.mem_cons_self _ _,
      Parse.node ['f'] [Parse.node ['x'] []],
      by simp [Parse.children],
      by simp [Parse.children]⟩

/-- **C9.** Field-value expansion: a one-token integer value `start` yields
element count 1; a three-token value `start .. end` (middle token exactly
`..`) yields count `end − start + 1`, so `PCAP_BITS 8 .. 14` gives count 7
at offset 8; any other token count (zero, two, four or more tokens), or a
middle token other than `..`, fails, so `PCAP_BITS 8 .. 14 .. 20` fails. -/
theorem c9_field_range_expansion :
    (∀ (name value t : List Char) (s : Int), pySplit value = [t] →
      pyInt t = some s → fixup_fields name value = Except.ok (name, s, 1)) ∧
    (∀ (name value t1 t2 : List Char) (s e : Int),
      pySplit value = [t1, ['.', '.'], t2] → pyInt t1 = some s →
      pyInt t2 = some e →
      fixup_fields name value = Except.ok (name, s, e - s + 1)) ∧
    (fixup_fields "PCAP_BITS".toList "8 .. 14".toList =
      Except.ok ("PCAP_BITS".toList, 8, 7)) ∧
    (∀ (name value t : List Char) (rest : List (List Char)),
      pySplit value = t :: rest → rest.length ≠ 0 → rest.length ≠ 2 →
      ∃ err, fixup_fields name value = Except.error err) ∧
    (∀ name value : List Char, pySplit value = [] →
      fixup_fields name value = Except.error FixErr.indexError) ∧
    (∀ (name value t1 m t2 : List Char), pySplit value = [t1, m, t2] →
      m ≠ ['.', '.'] → ∃ err, fixup_fields name value = Except.error err) ∧
    (fixup_fields "PCAP_BITS".toList "8 .. 14 .. 20".toList =
      Except.error FixErr.rangeUnpackError) := by
  refine ⟨?_, ?_, by rfl, ?_, ?_, ?_, by rfl⟩
  · intro name value t s hsp hit
    simp [fixup_fields, hsp, hit]
  · intro name value t1 t2 s e hsp hit1 hit2
    simp [fixup_fields, hsp, hit1, hit2]
  · intro name value t rest hsp h0 h2
    cases hit : pyInt t with
    | none => exact ⟨FixErr.intValueError, by simp [fixup_fields, hsp, hit]⟩
    | some s =>
      rcases rest with _ | ⟨x, _ | ⟨y, _ | ⟨z, zs⟩⟩⟩
      · simp at h0
      · exact ⟨FixErr.rangeUnpackError, by simp [fixup_fields, hsp, hit]⟩
      · simp at h2
      · exact ⟨FixErr.rangeUnpackError, by simp [fixup_fields, hsp, hit]⟩
  · intro name value hsp
    simp [fixup_fields, hsp]
  · intro name value t1 m t2 hsp hm
    cases hit : pyInt t1 with
    | none => exact ⟨FixErr.intValueError, by simp [fixup_fields, hsp, hit]⟩
    | some s =>
      exact ⟨FixErr.assertMalformedRange, by simp [fixup_fields, hsp, hit, hm]⟩

theorem c9_field_range_expansion_witness :
    fixup_fields ['X'] ['8'] = Except.ok (['X'], 8, 1) ∧
    fixup_fields ['X'] ['8', ' ', '.', '.', ' ', '9'] =
      Except.ok (['X'], 8, 9 - 8 + 1) ∧
    (∃ err, fixup_fields ['X'] ['8', ' ', '9'] = Except.error err) ∧
    fixup_fields ['X'] [' '] = Except.error FixErr.indexError ∧
    (∃ err, fixup_fields ['X'] ['8', ' ', 'x', ' ', '9'] = Except.error err) :=
  ⟨c9_field_range_expansion.1 ['X'] ['8'] ['8'] 8 (by decide) (by decide),
    c9_field_range_expansion.2.1 ['X'] ['8', ' ', '.', '.', ' ', '9'] ['8'] ['9'] 8 9
      (by decide) (by decide) (by decide),
    c9_field_range_expansion.2.2.2.1 ['X'] ['8', ' ', '9'] ['8'] [['9']]
      (by decide) (by decide) (by decide),
    c9_field_range_expansion.2.2.2.2.1 ['X'] [' '] (by decide),
    c9_field_range_expansion.2.2.2.2.2.1 ['X'] ['8', ' ', 'x', ' ', '9'] ['8'] ['x']
      ['9'] (by decide) (by decide)⟩
